import Mathlib

/-!
Shallow embedding of `ruffbox-scheduler/src/lib.rs` (the `EventSequence`
and `Scheduler` types and their methods), together with theorems settling
the specification claims about them.

Modelling conventions:
* Rust `f64` time/tempo values are modelled as exact rationals `ℚ`.
* Rust `usize` cursor values are modelled as `Nat`; the one place where the
  source can underflow a `usize` subtraction (a panic in debug builds) is
  modelled by returning `none`.
* Code that can panic (out-of-bounds indexing, `usize` underflow) returns
  `Option`: `none` models the panic.
* `js!` side effects (posting events, requesting the next timer callback)
  are modelled by returning the list of posted events and the number of
  requested future invocations.
-/

/-- Rust `char::is_whitespace` (the Unicode `White_Space` property),
used by `str::trim`. -/
def rustIsWhitespace (c : Char) : Bool :=
  c.toNat = 0x20 || (0x09 ≤ c.toNat && c.toNat ≤ 0x0D) || c.toNat = 0x85 ||
  c.toNat = 0xA0 || c.toNat = 0x1680 || (0x2000 ≤ c.toNat && c.toNat ≤ 0x200A) ||
  c.toNat = 0x2028 || c.toNat = 0x2029 || c.toNat = 0x202F || c.toNat = 0x205F ||
  c.toNat = 0x3000

/-- Rust `char::is_ascii_whitespace`, used by `str::split_ascii_whitespace`. -/
def isAsciiWhitespace (c : Char) : Bool :=
  c.toNat = 0x20 || c.toNat = 0x09 || c.toNat = 0x0A || c.toNat = 0x0C ||
  c.toNat = 0x0D

/-- Rust `str::trim`: drop leading and trailing Unicode whitespace. -/
def rustTrim (s : String) : String :=
  ⟨((s.data.dropWhile rustIsWhitespace).reverse.dropWhile rustIsWhitespace).reverse⟩

/-- Worker for `splitAsciiWhitespace`: walks the characters, accumulating the
current token (in reverse) in `acc`. -/
def splitAuxChars : List Char → List Char → List String
  | [], acc => if acc.isEmpty then [] else [⟨acc.reverse⟩]
  | c :: cs, acc =>
    if isAsciiWhitespace c then
      if acc.isEmpty then splitAuxChars cs []
      else ⟨acc.reverse⟩ :: splitAuxChars cs []
    else splitAuxChars cs (c :: acc)

/-- Rust `str::split_ascii_whitespace`: the non-empty maximal runs of
non-whitespace characters, in order. -/
def splitAsciiWhitespace (s : String) : List String :=
  splitAuxChars s.data []

/-- Finish one `\n`-terminated line of `rustLines`: `acc` holds the line's
characters in reverse, so a trailing `\r` (stripped by Rust `str::lines` on
`\r\n` endings) is `acc`'s head. -/
def finishLine (acc : List Char) : String :=
  match acc with
  | '\x0D' :: rest => ⟨rest.reverse⟩
  | _ => ⟨acc.reverse⟩

/-- Worker for `rustLines`: split at every `\n`, stripping the `\r` of an
`\r\n` ending; a final fragment without terminator is kept verbatim, and a
trailing newline produces no final empty line. -/
def rustLinesAux : List Char → List Char → List String
  | [], acc => if acc.isEmpty then [] else [⟨acc.reverse⟩]
  | c :: cs, acc =>
    if c = '\x0A' then finishLine acc :: rustLinesAux cs []
    else rustLinesAux cs (c :: acc)

/-- Rust `str::lines`. -/
def rustLines (s : String) : List String :=
  rustLinesAux s.data []

/-- Rust `struct EventSequence { events: Vec<String>, idx: usize }`. -/
structure EventSequence where
  events : List String
  idx : Nat
deriving Repr, DecidableEq

namespace EventSequence

/-- Rust `EventSequence::from_string`: tokenize the line on ASCII whitespace,
cursor at 0. -/
def from_string (input_line : String) : EventSequence :=
  { events := splitAsciiWhitespace input_line, idx := 0 }

/-- Rust `EventSequence::update_sequence`: replace the token vector by the
tokenization of `input_line`; if the old cursor is `≥` the new length, set it
to `len - 1`. When the new tokenization is empty, the source computes
`self.events.len() - 1 = 0usize - 1`, a `usize` underflow (panic in debug
builds), modelled as `none`. -/
def update_sequence (s : EventSequence) (input_line : String) :
    Option EventSequence :=
  let events' := splitAsciiWhitespace input_line
  if s.idx ≥ events'.length then
    if events'.length = 0 then none
    else some { events := events', idx := events'.length - 1 }
  else some { events := events', idx := s.idx }

/-- Rust `EventSequence::get_next_event`. The source's empty-sequence guard is the
statement `"~".to_string();`, which has no effect; the method then advances
the cursor and evaluates `&self.events[cur_idx]`, which panics (modelled as
`none`) when `cur_idx` is out of bounds — in particular on every empty
sequence. On success it returns the fetched token and the updated state. -/
def get_next_event (s : EventSequence) : Option (String × EventSequence) :=
  let cur_idx := s.idx
  let s' : EventSequence :=
    if s.idx + 1 = s.events.length then { s with idx := 0 }
    else { s with idx := s.idx + 1 }
  match s.events.get? cur_idx with
  | some e => some (e, s')
  | none => none

end EventSequence

/-- One message posted through the `js! { postMessage(...) }` block in
`Scheduler::generate_and_send_events`. -/
structure Event where
  source_type : String
  timestamp : ℚ
  sample_id : String
deriving Repr, DecidableEq

/-- Rust `struct Scheduler`, with `f64` fields modelled as `ℚ`. -/
structure Scheduler where
  audio_start_time : ℚ
  browser_start_time : ℚ
  audio_logical_time : ℚ
  browser_logical_time : ℚ
  next_schedule_time : ℚ
  lookahead : ℚ
  running : Bool
  tempo : ℚ
  event_sequences : List EventSequence

namespace Scheduler

/-- Rust `Scheduler::new` (the `0.100` lookahead modelled as the exact
rational `1/10`). -/
def new : Scheduler :=
  { audio_start_time := 0
    browser_start_time := 0
    audio_logical_time := 0
    browser_logical_time := 0
    next_schedule_time := 0
    lookahead := 1/10
    running := false
    tempo := 128
    event_sequences := [] }

/-- The `for line in all_lines.lines()` loop of `Scheduler::evaluate`:
`seqs` is the current `event_sequences` vector and `seq_idx` the running
index; returns the vector and `seq_idx` after the loop (`none` if an
`update_sequence` call panicked). -/
def evaluateLines : List String → List EventSequence → Nat →
    Option (List EventSequence × Nat)
  | [], seqs, seq_idx => some (seqs, seq_idx)
  | line :: rest, seqs, seq_idx =>
    if (rustTrim line).isEmpty then evaluateLines rest seqs seq_idx
    else
      if h : seq_idx < seqs.length then
        match (seqs.get ⟨seq_idx, h⟩).update_sequence (rustTrim line) with
        | some s' => evaluateLines rest (seqs.set seq_idx s') (seq_idx + 1)
        | none => none
      else
        evaluateLines rest (seqs ++ [EventSequence.from_string (rustTrim line)])
          (seq_idx + 1)

/-- Rust `Scheduler::evaluate`. On `some` input, run the line loop and then
truncate the vector to `seq_idx` if lines got fewer; on `none` input, only
log `"no input!"`. The second component collects the log messages. -/
def evaluate (s : Scheduler) (input : Option String) :
    Option (Scheduler × List String) :=
  match input with
  | some all_lines =>
    match evaluateLines (rustLines all_lines) s.event_sequences 0 with
    | some (seqs, seq_idx) =>
      some ({ s with event_sequences :=
                if seq_idx < seqs.length then seqs.take seq_idx else seqs }, [])
    | none => none
  | none => some (s, ["no input!"])

/-- The `for seq in self.event_sequences.iter_mut()` loop of
`generate_and_send_events`: pulls the next event of every sequence in order,
posting `{source_type, timestamp, sample_id}` for every non-`"~"` token
(`"sine"` maps to `"SinOsc"`, anything else to `"Sampler"`). Returns the
updated sequences and the posted events; `none` if `get_next_event`
panicked. -/
def runSeqs : List EventSequence → ℚ → Option (List EventSequence × List Event)
  | [], _ => some ([], [])
  | seq :: rest, trigger_time =>
    match seq.get_next_event with
    | some (next_event, seq') =>
      let next_source_type := if next_event = "sine" then "SinOsc" else "Sampler"
      match runSeqs rest trigger_time with
      | some (rs, evs) =>
        some (seq' :: rs,
          if next_event = "~" then evs
          else { source_type := next_source_type, timestamp := trigger_time,
                 sample_id := next_event } :: evs)
      | none => none
    | none => none

/-- Rust `Scheduler::generate_and_send_events`: early return on an empty
collection, otherwise post at `audio_logical_time + lookahead`. -/
def generate_and_send_events (s : Scheduler) :
    Option (Scheduler × List Event) :=
  if s.event_sequences.isEmpty then some (s, [])
  else
    let trigger_time := s.audio_logical_time + s.lookahead
    match runSeqs s.event_sequences trigger_time with
    | some (seqs', evs) => some ({ s with event_sequences := seqs' }, evs)
    | none => none

/-- Rust `Scheduler::scheduler_routine`. Returns the new state, the posted
events, and the number of future invocations requested through the
`self.sleep(...).then(...)` call (0 when not running, 1 otherwise). -/
def scheduler_routine (s : Scheduler) (browser_timestamp : ℚ) :
    Option (Scheduler × List Event × Nat) :=
  if !s.running then some (s, [], 0)
  else
    match s.generate_and_send_events with
    | some (s1, evs) =>
      some ({ s1 with
                next_schedule_time :=
                  s1.tempo - (browser_timestamp - s1.browser_logical_time)
                audio_logical_time := s1.audio_logical_time + s1.tempo / 1000
                browser_logical_time := s1.browser_logical_time + s1.tempo },
            evs, 1)
    | none => none

/-- Rust `Scheduler::start`: record the start times, reset the logical clocks to
them, set `running` and invoke the routine once. -/
def start (s : Scheduler) (audio_timestamp browser_timestamp : ℚ) :
    Option (Scheduler × List Event × Nat) :=
  let s1 := { s with
                audio_start_time := audio_timestamp
                browser_start_time := browser_timestamp
                audio_logical_time := audio_timestamp
                browser_logical_time := browser_timestamp
                running := true }
  s1.scheduler_routine browser_timestamp

/-- Rust `Scheduler::stop`. -/
def stop (s : Scheduler) : Scheduler :=
  { s with running := false }

/-- Rust `Scheduler::set_tempo`. -/
def set_tempo (s : Scheduler) (tempo : ℚ) : Scheduler :=
  { s with tempo := tempo }

end Scheduler

/-- Iterate `get_next_event` the given number of times, collecting the
returned tokens in order together with the final sequence state (`none` as
soon as one call panics). -/
def runSequence : Nat → EventSequence → Option (List String × EventSequence)
  | 0, s => some ([], s)
  | n + 1, s =>
    match s.get_next_event with
    | some (e, s') =>
      match runSequence n s' with
      | some (l, s'') => some (e :: l, s'')
      | none => none
    | none => none

/-- Spec-side description of one dispatch decision (claim C5, written from
the spec's words): the token under the cursor is suppressed when it is the
rest sentinel `"~"`, otherwise it is handed off with the trigger timestamp,
`"sine"` mapping to the synthesis category and every other token to the
sample category. -/
def emitSpec (trigger_time : ℚ) (q : EventSequence) : Option Event :=
  let tok := q.events.getD q.idx ""
  if tok = "~" then none
  else some { source_type := if tok = "sine" then "SinOsc" else "Sampler"
              timestamp := trigger_time
              sample_id := tok }

/-- Spec-side description of updating one existing sequence (claims C4/C6,
written from the spec's words): the token list is replaced and the cursor is
kept, clamped to `len - 1` when it would point past the new end. -/
def specUpdatedSeq (old : EventSequence) (toks : List String) : EventSequence :=
  if old.idx ≥ toks.length then { events := toks, idx := toks.length - 1 }
  else { events := toks, idx := old.idx }

/-- Spec-side description of a whole `evaluate` pass (claim C6, written from
the spec's words): the `i`-th non-blank line updates the `i`-th existing
sequence or appends a fresh one, and surplus sequences are discarded. -/
def specApplyLines : List EventSequence → List (List String) →
    List EventSequence
  | _, [] => []
  | [], ts => ts.map (fun t => { events := t, idx := 0 })
  | old :: olds, t :: ts => specUpdatedSeq old t :: specApplyLines olds ts

/-- Same as `specApplyLines` but before the final truncation: surplus old
sequences are still present. -/
def specApplyLinesKeep : List EventSequence → List (List String) →
    List EventSequence
  | olds, [] => olds
  | [], ts => ts.map (fun t => { events := t, idx := 0 })
  | old :: olds, t :: ts => specUpdatedSeq old t :: specApplyLinesKeep olds ts

/-- The token lists of the trimmed non-blank lines of a line list, in
order — one per resulting event sequence. -/
def nonBlankToks (lines : List String) : List (List String) :=
  ((lines.map rustTrim).filter (fun l => !l.isEmpty)).map splitAsciiWhitespace

/-- The token lists of the non-blank lines of an input text. -/
def lineTokenLists (text : String) : List (List String) :=
  nonBlankToks (rustLines text)

/-- The method `generate_and_send_events` only ever touches the `event_sequences`
field: every clock, the tempo, the lookahead and the running flag of a
successful result are those of the input state. -/
theorem generate_and_send_events_fields (s s1 : Scheduler) (evs : List Event)
    (h : s.generate_and_send_events = some (s1, evs)) :
    s1.tempo = s.tempo ∧ s1.browser_logical_time = s.browser_logical_time ∧
    s1.audio_logical_time = s.audio_logical_time ∧
    s1.lookahead = s.lookahead ∧ s1.running = s.running ∧
    s1.next_schedule_time = s.next_schedule_time ∧
    s1.audio_start_time = s.audio_start_time ∧
    s1.browser_start_time = s.browser_start_time := by
  unfold Scheduler.generate_and_send_events at h
  by_cases he : s.event_sequences.isEmpty
  · rw [if_pos he] at h
    cases h
    exact ⟨rfl, rfl, rfl, rfl, rfl, rfl, rfl, rfl⟩
  · rw [if_neg he] at h
    cases hm : Scheduler.runSeqs s.event_sequences
        (s.audio_logical_time + s.lookahead) with
    | none =>
      simp only [hm] at h
      exact Option.noConfusion h
    | some p =>
      obtain ⟨seqs', evs'⟩ := p
      simp only [hm] at h
      cases h
      exact ⟨rfl, rfl, rfl, rfl, rfl, rfl, rfl, rfl⟩

/-- A successful `evaluate` only ever touches the `event_sequences` field. -/
theorem evaluate_fields (s : Scheduler) (input : Option String)
    (r : Scheduler × List String) (h : s.evaluate input = some r) :
    r.1.tempo = s.tempo ∧ r.1.browser_logical_time = s.browser_logical_time ∧
    r.1.audio_logical_time = s.audio_logical_time ∧
    r.1.lookahead = s.lookahead ∧ r.1.running = s.running ∧
    r.1.next_schedule_time = s.next_schedule_time ∧
    r.1.audio_start_time = s.audio_start_time ∧
    r.1.browser_start_time = s.browser_start_time := by
  unfold Scheduler.evaluate at h
  match input with
  | none =>
    simp only at h
    cases h
    exact ⟨rfl, rfl, rfl, rfl, rfl, rfl, rfl, rfl⟩
  | some all_lines =>
    simp only at h
    split at h
    · cases h
      exact ⟨rfl, rfl, rfl, rfl, rfl, rfl, rfl, rfl⟩
    · cases h

/-- C1. The claim says `get_next_event` on an empty sequence returns the
rest sentinel `"~"`, never indexes out of bounds and leaves the state
unchanged. The code does none of this: its empty-sequence guard is the
effect-free statement `"~".to_string();`, after which it still bumps the
cursor and evaluates `&self.events[cur_idx]`, an out-of-bounds index (a
panic, modelled as `none`) on every empty sequence — already at the first
call, for every starting cursor value. -/
theorem C1_empty_sequence_get_next_event_panics :
    ∀ i : Nat, (EventSequence.mk ([] : List String) i).get_next_event = none :=
  fun i => by
    unfold EventSequence.get_next_event
    simp

/-- C4. The claim says `update_sequence` clamps the cursor to `len - 1`
whenever the old cursor is `≥` the new length, including when the new
tokenization is empty. On an empty tokenization the code instead computes
`self.events.len() - 1` with `len = 0`, a `usize` underflow (panic in debug
builds, wrap to an out-of-bounds `usize::MAX` in release builds), modelled
as `none`: here `update_sequence` on the sequence `["a"]` with cursor 0 and
replacement text `""`. -/
theorem C4_update_empty_underflow :
    (EventSequence.mk ["a"] 0).update_sequence "" = none := rfl

/-- C7. `evaluate` with no input text (`None`) changes no state at all and
only logs the diagnostic `"no input!"`. -/
theorem C7_evaluate_none_noop (s : Scheduler) :
    s.evaluate none = some (s, ["no input!"]) := rfl

/-- The method `scheduler_routine` on a non-running scheduler returns immediately. -/
theorem scheduler_routine_of_not_running (s : Scheduler)
    (browser_timestamp : ℚ) (h : s.running = false) :
    s.scheduler_routine browser_timestamp = some (s, [], 0) := by
  unfold Scheduler.scheduler_routine
  rw [h]
  simp

/-- Inversion for a successful tick of a running scheduler: the events come
from `generate_and_send_events`, exactly one further invocation is
requested, and the new state is the dispatched state with the drift
correction stored and both logical clocks advanced. -/
theorem scheduler_routine_of_running (s : Scheduler) (browser_timestamp : ℚ)
    (s' : Scheduler) (evs : List Event) (n : Nat) (hrun : s.running = true)
    (h : s.scheduler_routine browser_timestamp = some (s', evs, n)) :
    ∃ s1, s.generate_and_send_events = some (s1, evs) ∧ n = 1 ∧
      s' = { s1 with
               next_schedule_time :=
                 s1.tempo - (browser_timestamp - s1.browser_logical_time)
               audio_logical_time := s1.audio_logical_time + s1.tempo / 1000
               browser_logical_time := s1.browser_logical_time + s1.tempo } := by
  unfold Scheduler.scheduler_routine at h
  rw [hrun] at h
  simp only [Bool.not_true, Bool.false_eq_true, if_false] at h
  cases hgen : s.generate_and_send_events with
  | none =>
    simp only [hgen] at h
    exact Option.noConfusion h
  | some p =>
    obtain ⟨s1, evs1⟩ := p
    simp only [hgen] at h
    cases h
    exact ⟨s1, rfl, rfl, rfl⟩

/-- C8. `scheduler_routine` invoked while `running` is false is a pure
no-op: the state is returned unchanged, no event is dispatched and zero
further invocations are requested. -/
theorem C8_routine_idle_noop (s : Scheduler) (browser_timestamp : ℚ)
    (h : s.running = false) :
    s.scheduler_routine browser_timestamp = some (s, [], 0) :=
  scheduler_routine_of_not_running s browser_timestamp h

/-- C8 witness: a concrete idle scheduler. -/
theorem C8_routine_idle_noop_witness :
    Scheduler.new.running = false ∧
      Scheduler.new.scheduler_routine 500 = some (Scheduler.new, [], 0) :=
  ⟨rfl, C8_routine_idle_noop Scheduler.new 500 rfl⟩

/-- C2 counterexample. The claim says `next_schedule_time` is clamped to 0
whenever the drift `A - W` reaches the tempo `T`, and is never negative. No
clamping exists in the code: a running scheduler with tempo 128 and
`browser_logical_time = 0` whose tick fires at `browser_timestamp = 200`
(drift 200 ≥ 128) stores `next_schedule_time = 128 - 200 = -72 < 0`. -/
theorem C2_no_clamp_counterexample :
    (({ Scheduler.new with running := true } : Scheduler).scheduler_routine
        200).map (fun r => r.1.next_schedule_time) = some (-72) ∧
      ¬ (0 : ℚ) ≤ -72 := by
  constructor
  · norm_num [Scheduler.scheduler_routine, Scheduler.generate_and_send_events,
      Scheduler.new]
  · norm_num

/-- C2 as amended: on every active tick the stored `next_schedule_time` is
exactly `T - (A - W)` (tempo minus drift), with no clamping, so it is
negative whenever the drift exceeds the tempo. -/
theorem C2_drift_correction_amended (s : Scheduler) (browser_timestamp : ℚ)
    (s' : Scheduler) (evs : List Event) (n : Nat) (hrun : s.running = true)
    (h : s.scheduler_routine browser_timestamp = some (s', evs, n)) :
    s'.next_schedule_time =
      s.tempo - (browser_timestamp - s.browser_logical_time) := by
  unfold Scheduler.scheduler_routine at h
  rw [hrun] at h
  simp only [Bool.not_true, Bool.false_eq_true, if_false] at h
  cases hgen : s.generate_and_send_events with
  | none =>
    simp only [hgen] at h
    exact Option.noConfusion h
  | some p =>
    obtain ⟨s1, evs1⟩ := p
    obtain ⟨ht, hb, -⟩ := generate_and_send_events_fields s s1 evs1 hgen
    simp only [hgen] at h
    cases h
    simp only [ht, hb]

/-- C2 witness: a concrete running tick with drift 200 over tempo 128. -/
theorem C2_drift_correction_witness :
    ({ Scheduler.new with running := true } : Scheduler).running = true ∧
      ({ Scheduler.new with running := true } : Scheduler).scheduler_routine
          200 =
        some ({ Scheduler.new with
                  running := true
                  next_schedule_time := 128 - (200 - 0)
                  audio_logical_time := 0 + 128 / 1000
                  browser_logical_time := 0 + 128 }, [], 1) ∧
      ({ Scheduler.new with
           running := true
           next_schedule_time := 128 - (200 - 0)
           audio_logical_time := 0 + 128 / 1000
           browser_logical_time := 0 + 128 } : Scheduler).next_schedule_time =
        ({ Scheduler.new with running := true } : Scheduler).tempo -
          (200 -
            ({ Scheduler.new with running := true } :
              Scheduler).browser_logical_time) :=
  ⟨rfl, rfl, C2_drift_correction_amended _ 200 _ [] 1 rfl rfl⟩

/-- The method `get_next_event` with the cursor in bounds: returns the token under the
cursor and advances the cursor, wrapping to 0 from the last position. -/
theorem get_next_event_of_lt (es : List String) (i : Nat) (h : i < es.length) :
    (EventSequence.mk es i).get_next_event =
      some (es.get ⟨i, h⟩,
        EventSequence.mk es (if i + 1 = es.length then 0 else i + 1)) := by
  unfold EventSequence.get_next_event
  dsimp only
  rw [List.get?_eq_get h]
  by_cases hc : i + 1 = es.length
  · simp [hc]
  · simp [hc]

/-- Running a sequence from cursor `i` to the end of one cycle yields the
remaining tokens in order and wraps the cursor back to 0. -/
theorem runSequence_tail :
    ∀ (n : Nat) (es : List String) (i : Nat), i < es.length →
      i + n = es.length →
      runSequence n (EventSequence.mk es i) =
        some (es.drop i, EventSequence.mk es 0) := by
  intro n
  induction n with
  | zero =>
    intro es i h1 h2
    omega
  | succ m ih =>
    intro es i h1 h2
    rw [show runSequence (m + 1) (EventSequence.mk es i) =
        match (EventSequence.mk es i).get_next_event with
        | some (e, s') =>
          match runSequence m s' with
          | some (l, s'') => some (e :: l, s'')
          | none => none
        | none => none from rfl]
    rw [get_next_event_of_lt es i h1]
    by_cases hm : m = 0
    · subst hm
      have hlen : i + 1 = es.length := by omega
      simp only [hlen, if_pos rfl, runSequence]
      rw [List.drop_eq_getElem_cons h1, hlen, List.drop_length]
      simp
    · have hne : i + 1 ≠ es.length := by omega
      simp only [if_neg hne]
      rw [ih es (i + 1) (by omega) (by omega)]
      rw [List.drop_eq_getElem_cons h1]
      simp

/-- One full cycle from cursor 0 returns all tokens in order and restores
the initial state. -/
theorem runSequence_cycle (es : List String) (h : es ≠ []) :
    runSequence es.length (EventSequence.mk es 0) =
      some (es, EventSequence.mk es 0) := by
  have := runSequence_tail es.length es 0 (List.length_pos.mpr h)
    (by omega)
  simpa using this

/-- Splitting a run of `m + n` calls into a run of `m` followed by a run of
`n`. -/
theorem runSequence_add (m n : Nat) (s : EventSequence) :
    runSequence (m + n) s =
      match runSequence m s with
      | some (l, s') =>
        match runSequence n s' with
        | some (l2, s'') => some (l ++ l2, s'')
        | none => none
      | none => none := by
  induction m generalizing s with
  | zero =>
    simp only [Nat.zero_add, runSequence]
    cases hr : runSequence n s with
    | none => rfl
    | some p => rfl
  | succ m ih =>
    rw [show m + 1 + n = (m + n) + 1 from by omega]
    rw [show runSequence ((m + n) + 1) s =
        match s.get_next_event with
        | some (e, s') =>
          match runSequence (m + n) s' with
          | some (l, s'') => some (e :: l, s'')
          | none => none
        | none => none from rfl]
    rw [show runSequence (m + 1) s =
        match s.get_next_event with
        | some (e, s') =>
          match runSequence m s' with
          | some (l, s'') => some (e :: l, s'')
          | none => none
        | none => none from rfl]
    cases hg : s.get_next_event with
    | none => rfl
    | some p =>
      obtain ⟨e, s'⟩ := p
      dsimp only
      rw [ih s']
      cases h1 : runSequence m s' with
      | none => rfl
      | some q =>
        obtain ⟨l, s''⟩ := q
        dsimp only
        cases h2 : runSequence n s'' with
        | none => rfl
        | some r => rfl

/-- C3. For every non-empty token list `es`, starting from cursor 0, every
run of `k` full cycles of `es.length` calls to `get_next_event` returns the
original tokens in insertion order once per cycle (no panic) and brings the
cursor back to 0; in particular each single cycle (`k = 1`) enumerates each
token exactly once in order. -/
theorem C3_cyclic_iteration (es : List String) (h : es ≠ []) (k : Nat) :
    runSequence (k * es.length) (EventSequence.mk es 0) =
      some ((List.replicate k es).flatten, EventSequence.mk es 0) := by
  induction k with
  | zero => simp [runSequence]
  | succ k ih =>
    rw [show (k + 1) * es.length = es.length + k * es.length from by ring]
    rw [runSequence_add, runSequence_cycle es h]
    dsimp only
    rw [ih]
    rw [List.replicate_succ, List.flatten_cons]

/-- C3 witness: two full cycles of the two-token sequence `bd sn`. -/
theorem C3_cyclic_iteration_witness :
    (["bd", "sn"] : List String) ≠ [] ∧
      runSequence (2 * (["bd", "sn"] : List String).length)
          (EventSequence.mk ["bd", "sn"] 0) =
        some ((List.replicate 2 (["bd", "sn"] : List String)).flatten,
          EventSequence.mk ["bd", "sn"] 0) :=
  ⟨by decide, C3_cyclic_iteration ["bd", "sn"] (by decide) 2⟩

/-- C9 counterexample. `set_tempo` accepts any value, so tempo may be
negative, and a tick then moves both logical clocks backwards: a running
scheduler with tempo `-1000` and `audio_logical_time = 0` ends its tick at
`audio_logical_time = -1 < 0`. -/
theorem C9_negative_tempo_counterexample :
    (({ Scheduler.new with running := true, tempo := -1000 } :
        Scheduler).scheduler_routine 0).map
        (fun r => r.1.audio_logical_time) = some (-1) ∧
      ((-1 : ℚ) <
        ({ Scheduler.new with running := true, tempo := -1000 } :
          Scheduler).audio_logical_time) := by
  constructor
  · norm_num [Scheduler.scheduler_routine, Scheduler.generate_and_send_events,
      Scheduler.new]
  · norm_num [Scheduler.new]

/-- C9 as amended: provided the tempo is nonnegative, both logical clocks
are monotonically non-decreasing across every operation; an active tick
advances `audio_logical_time` by exactly `tempo / 1000` (milliseconds to
seconds) and `browser_logical_time` by exactly `tempo`, an idle tick leaves
the state unchanged, and `set_tempo`, `stop` and `evaluate` never move
either clock. -/
theorem C9_clock_advancement_amended (s : Scheduler) (browser_timestamp : ℚ)
    (s' : Scheduler) (evs : List Event) (n : Nat) (htempo : 0 ≤ s.tempo)
    (h : s.scheduler_routine browser_timestamp = some (s', evs, n)) :
    (s.running = true →
      s'.audio_logical_time = s.audio_logical_time + s.tempo / 1000 ∧
      s'.browser_logical_time = s.browser_logical_time + s.tempo) ∧
    (s.running = false → s' = s) ∧
    s.audio_logical_time ≤ s'.audio_logical_time ∧
    s.browser_logical_time ≤ s'.browser_logical_time ∧
    (∀ T : ℚ, (s.set_tempo T).audio_logical_time = s.audio_logical_time ∧
      (s.set_tempo T).browser_logical_time = s.browser_logical_time) ∧
    (s.stop.audio_logical_time = s.audio_logical_time ∧
      s.stop.browser_logical_time = s.browser_logical_time) ∧
    (∀ (inp : Option String) (r : Scheduler × List String),
      s.evaluate inp = some r →
        r.1.audio_logical_time = s.audio_logical_time ∧
        r.1.browser_logical_time = s.browser_logical_time) := by
  have hside : (∀ T : ℚ,
      (s.set_tempo T).audio_logical_time = s.audio_logical_time ∧
      (s.set_tempo T).browser_logical_time = s.browser_logical_time) ∧
      (s.stop.audio_logical_time = s.audio_logical_time ∧
        s.stop.browser_logical_time = s.browser_logical_time) ∧
      (∀ (inp : Option String) (r : Scheduler × List String),
        s.evaluate inp = some r →
          r.1.audio_logical_time = s.audio_logical_time ∧
          r.1.browser_logical_time = s.browser_logical_time) := by
    refine ⟨fun T => ⟨rfl, rfl⟩, ⟨rfl, rfl⟩, fun inp r hr => ?_⟩
    obtain ⟨-, hb, ha, -⟩ := evaluate_fields s inp r hr
    exact ⟨ha, hb⟩
  cases hrun : s.running with
  | false =>
    rw [scheduler_routine_of_not_running s browser_timestamp hrun] at h
    cases h
    refine ⟨fun hc => absurd hc (by simp [hrun]), fun _ => rfl, le_refl _,
      le_refl _, hside.1, hside.2.1, hside.2.2⟩
  | true =>
    obtain ⟨s1, hgen, -, hs'⟩ :=
      scheduler_routine_of_running s browser_timestamp s' evs n hrun h
    obtain ⟨ht, hb, ha, -⟩ := generate_and_send_events_fields s s1 evs hgen
    have ha' : s'.audio_logical_time =
        s.audio_logical_time + s.tempo / 1000 := by
      rw [hs']
      simp only [ha, ht]
    have hb' : s'.browser_logical_time =
        s.browser_logical_time + s.tempo := by
      rw [hs']
      simp only [hb, ht]
    have hq : (0 : ℚ) ≤ s.tempo / 1000 := by positivity
    refine ⟨fun _ => ⟨ha', hb'⟩, fun hc => absurd hc (by simp [hrun]), ?_, ?_,
      hside.1, hside.2.1, hside.2.2⟩
    · rw [ha']
      linarith
    · rw [hb']
      linarith

/-- C9 witness: a concrete running tick with the default tempo 128. -/
theorem C9_clock_advancement_witness :
    (0 : ℚ) ≤ ({ Scheduler.new with running := true } : Scheduler).tempo ∧
      ({ Scheduler.new with running := true } : Scheduler).scheduler_routine
          200 =
        some ({ Scheduler.new with
                  running := true
                  next_schedule_time := 128 - (200 - 0)
                  audio_logical_time := 0 + 128 / 1000
                  browser_logical_time := 0 + 128 }, [], 1) ∧
      (({ Scheduler.new with running := true } : Scheduler).running = true →
        ({ Scheduler.new with
             running := true
             next_schedule_time := 128 - (200 - 0)
             audio_logical_time := 0 + 128 / 1000
             browser_logical_time := 0 + 128 } :
            Scheduler).audio_logical_time =
          ({ Scheduler.new with running := true} :
              Scheduler).audio_logical_time +
            ({ Scheduler.new with running := true} : Scheduler).tempo / 1000 ∧
        ({ Scheduler.new with
             running := true
             next_schedule_time := 128 - (200 - 0)
             audio_logical_time := 0 + 128 / 1000
             browser_logical_time := 0 + 128 } :
            Scheduler).browser_logical_time =
          ({ Scheduler.new with running := true} :
              Scheduler).browser_logical_time +
            ({ Scheduler.new with running := true} : Scheduler).tempo) :=
  ⟨by decide, rfl,
    (C9_clock_advancement_amended { Scheduler.new with running := true } 200
      { Scheduler.new with
          running := true
          next_schedule_time := 128 - (200 - 0)
          audio_logical_time := 0 + 128 / 1000
          browser_logical_time := 0 + 128 } [] 1 (by decide) rfl).1⟩

/-- A variant of `get_next_event_of_lt` phrased on an arbitrary in-bounds
sequence state. -/
theorem get_next_event_of_lt' (q : EventSequence)
    (h : q.idx < q.events.length) :
    q.get_next_event =
      some (q.events.get ⟨q.idx, h⟩,
        EventSequence.mk q.events
          (if q.idx + 1 = q.events.length then 0 else q.idx + 1)) := by
  obtain ⟨es, i⟩ := q
  exact get_next_event_of_lt es i h

/-- The dispatch loop on in-bounds sequences never panics and posts exactly
the events described by `emitSpec`, one decision per sequence in index
order. -/
theorem runSeqs_spec (t : ℚ) :
    ∀ seqs : List EventSequence, (∀ q ∈ seqs, q.idx < q.events.length) →
      ∃ seqs', Scheduler.runSeqs seqs t =
        some (seqs', seqs.filterMap (emitSpec t)) := by
  intro seqs
  induction seqs with
  | nil =>
    intro _
    exact ⟨[], rfl⟩
  | cons q rest ih =>
    intro hall
    have hq : q.idx < q.events.length := hall q (List.mem_cons_self q rest)
    obtain ⟨rs, hrs⟩ := ih (fun x hx => hall x (List.mem_cons_of_mem q hx))
    refine ⟨EventSequence.mk q.events
      (if q.idx + 1 = q.events.length then 0 else q.idx + 1) :: rs, ?_⟩
    rw [show Scheduler.runSeqs (q :: rest) t =
        (match q.get_next_event with
        | some (next_event, seq') =>
          (match Scheduler.runSeqs rest t with
          | some (rs, evs) =>
            some (seq' :: rs,
              if next_event = "~" then evs
              else { source_type :=
                       if next_event = "sine" then "SinOsc" else "Sampler",
                     timestamp := t, sample_id := next_event } :: evs)
          | none => none)
        | none => none) from rfl]
    rw [get_next_event_of_lt' q hq, hrs]
    dsimp only
    have hgetD : q.events.getD q.idx "" = q.events.get ⟨q.idx, hq⟩ := by
      rw [List.getD_eq_getElem?_getD, List.getElem?_eq_getElem hq]
      rfl
    rw [List.filterMap_cons]
    unfold emitSpec
    dsimp only
    rw [hgetD]
    by_cases hr : q.events.get ⟨q.idx, hq⟩ = "~"
    · rw [if_pos hr, if_pos hr]
    · rw [if_neg hr, if_neg hr]

/-- C5. On every dispatch over a non-empty collection of in-bounds
sequences, the posted events are exactly: one decision per sequence in
index order, at trigger timestamp `audio_logical_time + lookahead`, with
rest-sentinel `"~"` tokens suppressed, token `"sine"` mapped to the
synthesis category `"SinOsc"` and every other token to the sample category
`"Sampler"`, handing off `{source_type, timestamp, sample_id}`. -/
theorem C5_dispatch_events (s : Scheduler) (hne : s.event_sequences ≠ [])
    (hlt : ∀ q ∈ s.event_sequences, q.idx < q.events.length) :
    (s.generate_and_send_events).map (fun r => r.2) =
      some (s.event_sequences.filterMap
        (emitSpec (s.audio_logical_time + s.lookahead))) := by
  obtain ⟨seqs', hrs⟩ :=
    runSeqs_spec (s.audio_logical_time + s.lookahead) s.event_sequences hlt
  unfold Scheduler.generate_and_send_events
  rw [if_neg (by simpa [List.isEmpty_iff] using hne)]
  dsimp only
  rw [hrs]
  rfl

/-- C5 witness: a concrete two-sequence dispatch with a sine token, a rest
and a sample token. -/
theorem C5_dispatch_events_witness :
    ({ Scheduler.new with event_sequences :=
        [EventSequence.mk ["sine", "~"] 0, EventSequence.mk ["bd", "sn"] 1] } :
       Scheduler).event_sequences ≠ [] ∧
    (∀ q ∈ ({ Scheduler.new with event_sequences :=
        [EventSequence.mk ["sine", "~"] 0, EventSequence.mk ["bd", "sn"] 1] } :
       Scheduler).event_sequences, q.idx < q.events.length) ∧
    (({ Scheduler.new with event_sequences :=
        [EventSequence.mk ["sine", "~"] 0, EventSequence.mk ["bd", "sn"] 1] } :
       Scheduler).generate_and_send_events).map (fun r => r.2) =
      some ((({ Scheduler.new with event_sequences :=
        [EventSequence.mk ["sine", "~"] 0, EventSequence.mk ["bd", "sn"] 1] } :
       Scheduler).event_sequences).filterMap
        (emitSpec (({ Scheduler.new with event_sequences :=
          [EventSequence.mk ["sine", "~"] 0, EventSequence.mk ["bd", "sn"] 1] } :
         Scheduler).audio_logical_time +
          ({ Scheduler.new with event_sequences :=
            [EventSequence.mk ["sine", "~"] 0,
              EventSequence.mk ["bd", "sn"] 1] } :
           Scheduler).lookahead))) :=
  ⟨by decide, by decide, C5_dispatch_events _ (by decide) (by decide)⟩

/-- Every ASCII whitespace character is Unicode whitespace. -/
theorem rustIsWhitespace_of_ascii (c : Char)
    (h : isAsciiWhitespace c = true) : rustIsWhitespace c = true := by
  simp only [isAsciiWhitespace, Bool.or_eq_true, decide_eq_true_eq] at h
  simp only [rustIsWhitespace, Bool.or_eq_true, Bool.and_eq_true,
    decide_eq_true_eq]
  omega

/-- The head of `dropWhile p l` does not satisfy `p`. -/
theorem dropWhile_head_false {p : Char → Bool} :
    ∀ (l : List Char) (c : Char) (rest : List Char),
      l.dropWhile p = c :: rest → p c = false := by
  intro l
  induction l with
  | nil =>
    intro c rest h
    exact List.noConfusion h
  | cons a as ih =>
    intro c rest h
    rw [List.dropWhile_cons] at h
    by_cases hp : p a = true
    · rw [if_pos hp] at h
      exact ih c rest h
    · rw [if_neg hp] at h
      cases h
      exact Bool.eq_false_iff.mpr hp

/-- The tokenizer worker yields at least one token as soon as a
non-whitespace character remains or a token is pending in `acc`. -/
theorem splitAuxChars_ne_nil :
    ∀ (l : List Char) (acc : List Char),
      ((∃ c ∈ l, isAsciiWhitespace c = false) ∨ acc ≠ []) →
      splitAuxChars l acc ≠ [] := by
  intro l
  induction l with
  | nil =>
    intro acc h
    rcases h with ⟨c, hc, -⟩ | h
    · exact absurd hc (List.not_mem_nil c)
    · unfold splitAuxChars
      rw [if_neg (by simpa [List.isEmpty_iff] using h)]
      exact List.cons_ne_nil _ _
  | cons a as ih =>
    intro acc h
    unfold splitAuxChars
    by_cases ha : isAsciiWhitespace a = true
    · rw [if_pos ha]
      by_cases hacc : acc.isEmpty
      · rw [if_pos hacc]
        apply ih []
        left
        rcases h with ⟨c, hc, hcf⟩ | hne
        · rcases List.mem_cons.mp hc with rfl | hmem
          · rw [ha] at hcf
            exact Bool.noConfusion hcf
          · exact ⟨c, hmem, hcf⟩
        · exact absurd (List.isEmpty_iff.mp hacc) hne
      · rw [if_neg hacc]
        exact List.cons_ne_nil _ _
    · rw [if_neg ha]
      apply ih (a :: acc)
      right
      exact List.cons_ne_nil a acc

/-- A line whose trimmed form is non-blank contains a non-whitespace
character in its trimmed form. -/
theorem exists_nonws_char (line : String)
    (h : (rustTrim line).isEmpty = false) :
    ∃ c ∈ (rustTrim line).data, isAsciiWhitespace c = false := by
  have hne : (rustTrim line).data ≠ [] := by
    intro hd
    have he : rustTrim line = "" := String.ext (by rw [hd])
    rw [he] at h
    exact Bool.noConfusion h
  have hdata : (rustTrim line).data =
      ((line.data.dropWhile rustIsWhitespace).reverse.dropWhile
        rustIsWhitespace).reverse := rfl
  cases hy : (line.data.dropWhile rustIsWhitespace).reverse.dropWhile
      rustIsWhitespace with
  | nil =>
    rw [hdata, hy] at hne
    exact absurd rfl hne
  | cons c rest =>
    have hpc : rustIsWhitespace c = false := dropWhile_head_false _ c rest hy
    refine ⟨c, ?_, ?_⟩
    · rw [hdata, hy]
      exact List.mem_reverse.mpr (List.mem_cons_self c rest)
    · by_contra hca
      rw [Bool.not_eq_false] at hca
      rw [rustIsWhitespace_of_ascii c hca] at hpc
      exact Bool.noConfusion hpc

/-- A non-blank line tokenizes to a non-empty token list. -/
theorem tokens_of_nonblank (line : String)
    (h : (rustTrim line).isEmpty = false) :
    splitAsciiWhitespace (rustTrim line) ≠ [] := by
  unfold splitAsciiWhitespace
  exact splitAuxChars_ne_nil _ [] (Or.inl (exists_nonws_char line h))

/-- The method `update_sequence` with a non-empty tokenization never panics and
produces exactly the keep-or-clamp update of the spec. -/
theorem update_sequence_of_ne_nil (q : EventSequence) (line : String)
    (h : splitAsciiWhitespace line ≠ []) :
    q.update_sequence line =
      some (specUpdatedSeq q (splitAsciiWhitespace line)) := by
  unfold EventSequence.update_sequence specUpdatedSeq
  dsimp only
  by_cases hge : q.idx ≥ (splitAsciiWhitespace line).length
  · rw [if_pos hge, if_pos hge,
      if_neg (by simpa [List.length_eq_zero] using h)]
  · rw [if_neg hge, if_neg hge]

/-- Setting the element right after a prefix. -/
theorem set_append_length {α : Type} :
    ∀ (l₁ : List α) (a : α) (l₂ : List α) (u : α),
      (l₁ ++ a :: l₂).set l₁.length u = l₁ ++ u :: l₂ := by
  intro l₁
  induction l₁ with
  | nil =>
    intro a l₂ u
    rfl
  | cons b bs ih =>
    intro a l₂ u
    exact congrArg (List.cons b) (ih a l₂ u)

/-- Reading the element right after a prefix. -/
theorem get_append_length {α : Type} :
    ∀ (l₁ : List α) (a : α) (l₂ : List α)
      (h : l₁.length < (l₁ ++ a :: l₂).length),
      (l₁ ++ a :: l₂).get ⟨l₁.length, h⟩ = a := by
  intro l₁
  induction l₁ with
  | nil =>
    intro a l₂ h
    rfl
  | cons b bs ih =>
    intro a l₂ h
    exact ih a l₂ (by simp)

/-- The function `specApplyLinesKeep` with no existing sequences appends a fresh
sequence per token list. -/
theorem specApplyLinesKeep_nil (ts : List (List String)) :
    specApplyLinesKeep [] ts =
      ts.map (fun t => { events := t, idx := 0 }) := by
  cases ts with
  | nil => rfl
  | cons t ts => rfl

/-- A blank line contributes no token list. -/
theorem nonBlankToks_cons_blank (line : String) (rest : List String)
    (hb : (rustTrim line).isEmpty = true) :
    nonBlankToks (line :: rest) = nonBlankToks rest := by
  simp [nonBlankToks, hb]

/-- A non-blank line contributes its token list. -/
theorem nonBlankToks_cons_nonblank (line : String) (rest : List String)
    (hb : (rustTrim line).isEmpty = false) :
    nonBlankToks (line :: rest) =
      splitAsciiWhitespace (rustTrim line) :: nonBlankToks rest := by
  simp [nonBlankToks, hb]

/-- Invariant of the `evaluate` line loop: starting from a vector made of an
already-processed prefix `done` (with `seq_idx = done.length`) and the
untouched old suffix `olds`, the loop never panics, pairs the non-blank
lines' token lists with `olds` (updating in place, appending once `olds` is
exhausted, keeping any surplus of `olds`), and ends with `seq_idx` advanced
by the number of non-blank lines. -/
theorem evaluateLines_spec :
    ∀ (lines : List String) (done olds : List EventSequence),
      Scheduler.evaluateLines lines (done ++ olds) done.length =
        some (done ++ specApplyLinesKeep olds (nonBlankToks lines),
          done.length + (nonBlankToks lines).length) := by
  intro lines
  induction lines with
  | nil =>
    intro done olds
    simp [Scheduler.evaluateLines, nonBlankToks, specApplyLinesKeep]
  | cons line rest ih =>
    intro done olds
    rw [show Scheduler.evaluateLines (line :: rest) (done ++ olds)
          done.length =
        (if (rustTrim line).isEmpty then
          Scheduler.evaluateLines rest (done ++ olds) done.length
        else
          if h : done.length < (done ++ olds).length then
            match ((done ++ olds).get
                ⟨done.length, h⟩).update_sequence (rustTrim line) with
            | some s' =>
              Scheduler.evaluateLines rest ((done ++ olds).set done.length s')
                (done.length + 1)
            | none => none
          else
            Scheduler.evaluateLines rest
              ((done ++ olds) ++ [EventSequence.from_string (rustTrim line)])
              (done.length + 1)) from rfl]
    by_cases hb : (rustTrim line).isEmpty
    · rw [if_pos hb, ih done olds, nonBlankToks_cons_blank line rest hb]
    · rw [if_neg hb]
      have hb' : (rustTrim line).isEmpty = false := Bool.eq_false_iff.mpr hb
      have htoks : splitAsciiWhitespace (rustTrim line) ≠ [] :=
        tokens_of_nonblank line hb'
      rw [nonBlankToks_cons_nonblank line rest hb']
      cases olds with
      | nil =>
        have hlen : ¬ done.length <
            (done ++ ([] : List EventSequence)).length := by
          simp
        rw [dif_neg hlen]
        rw [show (done ++ ([] : List EventSequence)) ++
              [EventSequence.from_string (rustTrim line)] =
            (done ++ [EventSequence.from_string (rustTrim line)]) ++
              ([] : List EventSequence) from by simp]
        rw [show done.length + 1 =
            (done ++ [EventSequence.from_string (rustTrim line)]).length
          from by simp]
        rw [ih (done ++ [EventSequence.from_string (rustTrim line)]) []]
        rw [specApplyLinesKeep_nil, specApplyLinesKeep_nil]
        simp only [Option.some.injEq, Prod.mk.injEq]
        constructor
        · simp [EventSequence.from_string]
        · simp
          omega
      | cons o os =>
        have hlen : done.length < (done ++ o :: os).length := by
          simp
        rw [dif_pos hlen]
        rw [get_append_length done o os hlen]
        rw [update_sequence_of_ne_nil o (rustTrim line) htoks]
        dsimp only
        rw [set_append_length done o os
          (specUpdatedSeq o (splitAsciiWhitespace (rustTrim line)))]
        rw [show done ++
              specUpdatedSeq o (splitAsciiWhitespace (rustTrim line)) :: os =
            (done ++
              [specUpdatedSeq o (splitAsciiWhitespace (rustTrim line))]) ++ os
          from by simp]
        rw [show done.length + 1 =
            (done ++
              [specUpdatedSeq o (splitAsciiWhitespace (rustTrim line))]).length
          from by simp]
        rw [ih (done ++
          [specUpdatedSeq o (splitAsciiWhitespace (rustTrim line))]) os]
        simp only [Option.some.injEq, Prod.mk.injEq, specApplyLinesKeep]
        constructor
        · simp
        · simp
          omega

/-- Taking the first `ts.length` entries of the untruncated result drops
exactly the surplus old sequences. -/
theorem specApplyLinesKeep_take :
    ∀ (ts : List (List String)) (olds : List EventSequence),
      (specApplyLinesKeep olds ts).take ts.length = specApplyLines olds ts := by
  intro ts
  induction ts with
  | nil =>
    intro olds
    cases olds with
    | nil => rfl
    | cons o os => rfl
  | cons t ts ih =>
    intro olds
    cases olds with
    | nil =>
      rw [specApplyLinesKeep_nil]
      show ((t :: ts).map (fun t => EventSequence.mk t 0)).take
          (t :: ts).length = specApplyLines [] (t :: ts)
      rw [show (t :: ts).length =
          ((t :: ts).map (fun t => EventSequence.mk t 0)).length from
        (List.length_map _ _).symm]
      rw [List.take_length]
      rfl
    | cons o os =>
      show (specUpdatedSeq o t :: specApplyLinesKeep os ts).take
          (ts.length + 1) = specUpdatedSeq o t :: specApplyLines os ts
      rw [List.take_succ_cons, ih os]

/-- The truncated result has exactly one sequence per non-blank line. -/
theorem specApplyLines_length :
    ∀ (ts : List (List String)) (olds : List EventSequence),
      (specApplyLines olds ts).length = ts.length := by
  intro ts
  induction ts with
  | nil =>
    intro olds
    cases olds with
    | nil => rfl
    | cons o os => rfl
  | cons t ts ih =>
    intro olds
    cases olds with
    | nil =>
      show ((t :: ts).map (fun t => EventSequence.mk t 0)).length =
        (t :: ts).length
      exact List.length_map _ _
    | cons o os =>
      show (specUpdatedSeq o t :: specApplyLines os ts).length = ts.length + 1
      simp [ih os]

/-- With no token lists at all, the truncated result is empty. -/
theorem specApplyLines_nil (olds : List EventSequence) :
    specApplyLines olds [] = [] := by
  cases olds with
  | nil => rfl
  | cons o os => rfl

/-- The conditional truncation performed at the end of `evaluate` always
produces the truncated result. -/
theorem truncate_keep (olds : List EventSequence) (ts : List (List String)) :
    (if ts.length < (specApplyLinesKeep olds ts).length then
      (specApplyLinesKeep olds ts).take ts.length
    else specApplyLinesKeep olds ts) = specApplyLines olds ts := by
  by_cases hlt : ts.length < (specApplyLinesKeep olds ts).length
  · rw [if_pos hlt, specApplyLinesKeep_take]
  · rw [if_neg hlt]
    have hle : (specApplyLinesKeep olds ts).length ≤ ts.length :=
      Nat.le_of_not_lt hlt
    have h := specApplyLinesKeep_take ts olds
    rw [List.take_of_length_le hle] at h
    exact h

/-- C6 counterexample. Two sequences, the first with cursor 2; a second
`evaluate` with the single non-blank line `"x"` truncates the collection to
one sequence (as claimed) but moves the surviving sequence's cursor from 2
to 0 (clamped to the new `len - 1`), refuting "leaves the cursors of the
first k' sequences untouched". -/
theorem C6_cursor_clamped_counterexample :
    (Scheduler.evaluate
        { Scheduler.new with event_sequences :=
            [EventSequence.mk ["a", "b", "c"] 2, EventSequence.mk ["d"] 0] }
        (some "x")).map
        (fun r => r.1.event_sequences.map EventSequence.idx) = some [0] ∧
      (0 : Nat) ≠ 2 := by
  constructor
  · decide
  · decide

/-- C6 as amended: `evaluate` with input text never fails; the resulting
collection is exactly one sequence per non-blank line (blank lines skipped,
surplus old sequences discarded), where the `i`-th non-blank line updates
the `i`-th old sequence — keeping its cursor, clamped to the new `len - 1`
when it would point past the new end — and lines beyond the old collection
append fresh sequences with cursor 0. -/
theorem C6_evaluate_amended (s : Scheduler) (text : String) :
    s.evaluate (some text) =
      some ({ s with event_sequences :=
                specApplyLines s.event_sequences (lineTokenLists text) }, []) ∧
      (specApplyLines s.event_sequences (lineTokenLists text)).length =
        (lineTokenLists text).length := by
  have hml := evaluateLines_spec (rustLines text) [] s.event_sequences
  simp only [List.nil_append, List.length_nil, Nat.zero_add] at hml
  constructor
  · unfold Scheduler.evaluate
    dsimp only
    rw [hml]
    dsimp only
    rw [truncate_keep]
    rfl
  · exact specApplyLines_length (lineTokenLists text) s.event_sequences

/-- C10. `evaluate` with present input text containing zero non-blank lines
truncates the collection to length zero, discarding every sequence (and its
cursor state) — in contrast to `evaluate` with no text, which is a no-op. -/
theorem C10_evaluate_blank_truncates (s : Scheduler) (text : String)
    (h : lineTokenLists text = []) :
    s.evaluate (some text) = some ({ s with event_sequences := [] }, []) := by
  have hml := evaluateLines_spec (rustLines text) [] s.event_sequences
  simp only [List.nil_append, List.length_nil, Nat.zero_add] at hml
  unfold Scheduler.evaluate
  dsimp only
  rw [hml]
  dsimp only
  rw [truncate_keep]
  have h' : nonBlankToks (rustLines text) = [] := h
  rw [h', specApplyLines_nil]

/-- C10 witness: a text of one blank and one whitespace-only line wipes a
one-sequence collection. -/
theorem C10_evaluate_blank_truncates_witness :
    lineTokenLists "\n   \n" = [] ∧
      ({ Scheduler.new with event_sequences := [EventSequence.mk ["a"] 0] } :
          Scheduler).evaluate (some "\n   \n") =
        some ({ { Scheduler.new with
                    event_sequences := [EventSequence.mk ["a"] 0] } with
                  event_sequences := [] }, []) :=
  ⟨by decide,
    C10_evaluate_blank_truncates
      { Scheduler.new with event_sequences := [EventSequence.mk ["a"] 0] }
      "\n   \n" (by decide)⟩
